import Mathlib

-- Verification of the backtracking sudoku solver in sudoku_bf.py.
--
-- The Python board is a dict mapping each of the 81 keys (row, col),
-- 0 ≤ row, col < 9, to an int in [0, 9) (the digit minus one, as produced
-- by read_input) or to None (an empty cell).  We embed the board as a
-- total function `Nat → Nat → Option Nat`; since the dict built by
-- read_input contains exactly the 81 in-range keys, the membership test
-- `key not in board` becomes the range test ¬(key.1 < 9 ∧ key.2 < 9).
--
-- The solver mutates the dict in place, so `solveM` threads the state
-- explicitly and returns the pair (result, final board state), matching
-- the Python function which returns either None or the (mutated) board
-- object itself.  `solveF` is the same computation with an explicit
-- fuel bound on the recursion depth over cells; it is structurally
-- recursive, hence evaluable by the kernel, and `solveM_eq_solveF`
-- shows fuel 82 (the initial call plus the 81 cursor steps) suffices.

namespace Sudoku

abbrev Board := Nat → Nat → Option Nat

/-- Embedding of `next_key(row, col)` from sudoku_bf.py. -/
def next_key (row col : Nat) : Nat × Nat :=
  if col = 8 then (row + 1, 0) else (row, col + 1)

/-- Embedding of `possible(board, key, value)` from sudoku_bf.py: the row
scan, the column scan and the 3x3 box scan, each an early `return False`. -/
def possible (board : Board) (key : Nat × Nat) (value : Nat) : Bool :=
  if (List.range 9).any (fun c => board key.1 c == some value) then false
  else if (List.range 9).any (fun r => board r key.2 == some value) then false
  else if (List.range 3).any (fun dr =>
      (List.range 3).any (fun dc =>
        board (3 * (key.1 / 3) + dr) (3 * (key.2 / 3) + dc) == some value)) then
    false
  else true

/-- The in-place dict update `board[key] = v` (with `v = none` for
`board[key] = None`), as a functional update. -/
def setCell (board : Board) (key : Nat × Nat) (v : Option Nat) : Board :=
  fun r c => if r = key.1 ∧ c = key.2 then v else board r c

/-- The `for value in range(9)` loop in `solve`, parameterised by the
recursive call `rec` (which is `solve(board, next_key(*key))`).  The list
argument holds the values not yet tried; the loop body assigns the value,
recurses, and on failure retracts the assignment (`board[key] = None`)
before trying the next value.  The board state is threaded through. -/
def tryList (rec : Board → Option Board × Board) (board : Board)
    (key : Nat × Nat) : List Nat → Option Board × Board
  | [] => (none, board)
  | v :: vs =>
    if possible board key v then
      match rec (setCell board key (some v)) with
      | (some sol, b2) => (some sol, b2)
      | (none, b2) => tryList rec (setCell b2 key none) key vs
    else tryList rec board key vs

/-- Embedding of `solve(board, key)` with an explicit fuel parameter
bounding the recursion depth over cells.  With fuel `0` the search is
abandoned (this situation is unreachable with fuel ≥ 82 from key (0,0),
by `solveM_eq_solveF`).  The first component is the returned value
(None or the board); the second is the final state of the dict. -/
def solveF : Nat → Board → Nat × Nat → Option Board × Board
  | 0, board, _ => (none, board)
  | n + 1, board, key =>
    if key.1 < 9 ∧ key.2 < 9 then
      match board key.1 key.2 with
      | none =>
        tryList (fun b2 => solveF n b2 (next_key key.1 key.2)) board key
          (List.range 9)
      | some _ => solveF n board (next_key key.1 key.2)
    else (some board, board)

/-- The row-major index of the key strictly increases at each cursor step. -/
theorem next_key_idx (r c : Nat) (hc : c < 9) :
    9 * (next_key r c).1 + (next_key r c).2 = 9 * r + c + 1 := by
  unfold next_key
  split <;> simp <;> omega

/-- The column of the cursor stays in [0, 9). -/
theorem next_key_snd (r c : Nat) (hc : c < 9) : (next_key r c).2 < 9 := by
  unfold next_key
  split <;> simp <;> omega

/-- Embedding of `solve(board, key)` from sudoku_bf.py, with the in-place
mutation made explicit: the result is the pair (returned value, final
state of the board dict).  `if key not in board: return board` is the
range test (the dict has exactly the 81 in-range keys); an empty cell
runs the candidate loop over `range(9)`; a non-empty cell is skipped. -/
def solveM (board : Board) (key : Nat × Nat) : Option Board × Board :=
  if h : key.1 < 9 ∧ key.2 < 9 then
    match board key.1 key.2 with
    | none =>
      tryList (fun b2 => solveM b2 (next_key key.1 key.2)) board key
        (List.range 9)
    | some _ => solveM board (next_key key.1 key.2)
  else (some board, board)
termination_by 81 - (9 * key.1 + key.2)
decreasing_by
  all_goals
    have hq := next_key_idx key.1 key.2 h.2
    omega

/-- The top-level entry point `solve(board)`: the value returned to the
caller (a solved board, or None for "no possible solution"). -/
def solve (board : Board) : Option Board := (solveM board (0, 0)).1

-- Declarative notions used to state the claims.

/-- Two cells share a rule group: same row, same column, or same 3x3 box. -/
def sameGroup (p q : Nat × Nat) : Prop :=
  p.1 = q.1 ∨ p.2 = q.2 ∨ (p.1 / 3 = q.1 / 3 ∧ p.2 / 3 = q.2 / 3)

instance instDecidableSameGroup (p q : Nat × Nat) : Decidable (sameGroup p q) :=
  inferInstanceAs (Decidable (_ ∨ _ ∨ (_ ∧ _)))

/-- No two distinct cells of a shared rule group both hold the same digit
(the legality invariant on partial grids). -/
def noConflict (b : Board) : Prop :=
  ∀ r1, r1 < 9 → ∀ c1, c1 < 9 → ∀ r2, r2 < 9 → ∀ c2, c2 < 9 →
    (r1 ≠ r2 ∨ c1 ≠ c2) → sameGroup (r1, c1) (r2, c2) →
    b r1 c1 = none ∨ b r1 c1 ≠ b r2 c2

/-- Two boards agree on all 81 in-range cells. -/
def agreeIn (b b2 : Board) : Prop :=
  ∀ r, r < 9 → ∀ c, c < 9 → b r c = b2 r c

set_option synthInstance.maxSize 2048 in
set_option synthInstance.maxHeartbeats 1000000 in
set_option maxHeartbeats 2000000 in
instance instDecidableNoConflict (b : Board) : Decidable (noConflict b) := by
  unfold noConflict
  infer_instance

/-- The `i`-th cell of the `g`-th 3x3 box, boxes and cells numbered
row-major as in the module comment of the source. -/
def boxCell (g i : Nat) : Nat × Nat :=
  (3 * (g / 3) + i / 3, 3 * (g % 3) + i % 3)

/-- A full valid solution: every row, every column and every box contains
each of the nine digits exactly once (values are zero-based: value `v`
stands for digit `v + 1`). -/
def validSolution (s : Board) : Prop :=
  ∀ v, v < 9 →
    (∀ r, r < 9 →
      ((Finset.range 9).filter (fun c => s r c = some v)).card = 1) ∧
    (∀ c, c < 9 →
      ((Finset.range 9).filter (fun r => s r c = some v)).card = 1) ∧
    (∀ g, g < 9 →
      ((Finset.range 9).filter
        (fun i => s (boxCell g i).1 (boxCell g i).2 = some v)).card = 1)

/-- `s` is a completion of `b` from cursor position `k` on: it agrees
with `b` on every cell before `k` in row-major order, on every set cell
and on every out-of-range cell, it is full with digits 1 to 9 on the
nine-by-nine grid, and it satisfies the legality invariant. -/
def CompFrom (b : Board) (k : Nat × Nat) (s : Board) : Prop :=
  (∀ r c, r < 9 → c < 9 → 9 * r + c < 9 * k.1 + k.2 → s r c = b r c) ∧
  (∀ r c, b r c ≠ none → s r c = b r c) ∧
  (∀ r c, 9 ≤ r ∨ 9 ≤ c → s r c = b r c) ∧
  (∀ r, r < 9 → ∀ c, c < 9 → ∃ v, v < 9 ∧ s r c = some v) ∧
  noConflict s

/-- `s` is a valid completion of the puzzle `b`: it extends the given
cells of `b` (and is arbitrary-cell-for-cell equal to `b` outside the
grid), fills every cell with a digit 1 to 9, and no digit repeats inside
any row, column or box. -/
def IsCompletion (b s : Board) : Prop := CompFrom b (0, 0) s

/-- Row-major lexicographic comparison of full boards starting at cursor
position `k`: equal, or they agree strictly before some in-range cell at
or after `k` where the first board holds the smaller digit (digits are
compared by their zero-based values, so ascending digit order). -/
def lexLEfrom (k : Nat × Nat) (s t : Board) : Prop :=
  s = t ∨ ∃ r c, r < 9 ∧ c < 9 ∧ 9 * k.1 + k.2 ≤ 9 * r + c ∧
    (∀ r2 c2, r2 < 9 → c2 < 9 → 9 * r2 + c2 < 9 * r + c → s r2 c2 = t r2 c2) ∧
    ∃ v w, s r c = some v ∧ t r c = some w ∧ v < w

/-- Row-major lexicographic order on full boards, cells compared from
(0,0) onwards, digits in ascending order. -/
def lexLE (s t : Board) : Prop := lexLEfrom (0, 0) s t

/-- A complete valid demonstration grid: the cell (r, c) holds the value
(3(r mod 3) + r div 3 + c) mod 9, the classic shifted pattern. -/
def bDemo : Board :=
  fun r c => if r < 9 ∧ c < 9 then some ((3 * (r % 3) + r / 3 + c) % 9) else none

/-- A fully-given but invalid grid: every cell holds the digit 1. -/
def bAll0 : Board := fun _ _ => some 0

/-- The empty grid: all 81 cells blank. -/
def bEmpty : Board := fun _ _ => none

/-- An unsatisfiable grid that fails immediately: row 0 holds the digits
1 to 8 in columns 0 to 7, cell (0,8) is empty, and cell (1,8) holds the
digit 9, so no candidate fits at (0,8) and no earlier cell is empty. -/
def bFail : Board :=
  fun r c =>
    if r = 0 ∧ c < 8 then some c
    else if r = 1 ∧ c = 8 then some 8
    else none

instance instDecidableValidSolution (s : Board) : Decidable (validSolution s) := by
  unfold validSolution
  infer_instance

-- Basic lemmas about setCell.

theorem setCell_same (b : Board) (k : Nat × Nat) (v : Option Nat) :
    setCell b k v k.1 k.2 = v := by
  simp [setCell]

theorem setCell_other (b : Board) (k : Nat × Nat) (v : Option Nat)
    (r c : Nat) (h : ¬(r = k.1 ∧ c = k.2)) : setCell b k v r c = b r c := by
  simp [setCell, h]

theorem setCell_setCell (b : Board) (k : Nat × Nat) (v w : Option Nat) :
    setCell (setCell b k v) k w = setCell b k w := by
  funext r c
  by_cases h : r = k.1 ∧ c = k.2 <;> simp [setCell, h]

theorem setCell_none_of_none (b : Board) (k : Nat × Nat)
    (h : b k.1 k.2 = none) : setCell b k none = b := by
  funext r c
  by_cases hrc : r = k.1 ∧ c = k.2
  · rw [hrc.1, hrc.2]
    simp [setCell, h]
  · simp [setCell, hrc]

theorem setCell_agreeIn (b b2 : Board) (k : Nat × Nat) (v : Option Nat)
    (h : agreeIn b b2) : agreeIn (setCell b k v) (setCell b2 k v) := by
  intro r hr c hc
  by_cases hrc : r = k.1 ∧ c = k.2 <;> simp [setCell, hrc, h r hr c hc]

-- Characterisation of the legality predicate.

theorem aux_if3 (a b c : Bool) :
    ((if a then false else if b then false else if c then false else true)
      = true) ↔ a = false ∧ b = false ∧ c = false := by
  cases a <;> cases b <;> cases c <;> simp

/-- `possible` scans exactly the in-range cells sharing a row, column or
box with the key: it returns true iff none of them holds the value. -/
theorem possible_eq_true_iff (b : Board) (k : Nat × Nat) (v : Nat)
    (h1 : k.1 < 9) (h2 : k.2 < 9) :
    possible b k v = true ↔
      ∀ r, r < 9 → ∀ c, c < 9 → sameGroup (r, c) k → b r c ≠ some v := by
  rw [possible, aux_if3]
  simp only [List.any_eq_false, List.mem_range, beq_iff_eq, not_exists,
    Bool.not_eq_true, beq_eq_false_iff_ne, ne_eq]
  constructor
  · rintro ⟨hrow, hcol, hbox⟩ r hr c hc hsg
    rcases hsg with hsg | hsg | hsg
    · have e : r = k.1 := hsg
      rw [e]
      exact hrow c hc
    · have e : c = k.2 := hsg
      rw [e]
      exact hcol r hr
    · have h3 : r / 3 = k.1 / 3 := hsg.1
      have h4 : c / 3 = k.2 / 3 := hsg.2
      have hdr : r % 3 < 3 := Nat.mod_lt _ (by omega)
      have hdc : c % 3 < 3 := Nat.mod_lt _ (by omega)
      have := hbox (r % 3) hdr (c % 3) hdc
      have er : 3 * (k.1 / 3) + r % 3 = r := by omega
      have ec : 3 * (k.2 / 3) + c % 3 = c := by omega
      rwa [er, ec] at this
  · intro hall
    refine ⟨fun c hc => ?_, fun r hr => ?_, fun dr hdr dc hdc => ?_⟩
    · exact hall k.1 h1 c hc (Or.inl rfl)
    · exact hall r hr k.2 h2 (Or.inr (Or.inl rfl))
    · refine hall (3 * (k.1 / 3) + dr) (by omega) (3 * (k.2 / 3) + dc)
        (by omega) (Or.inr (Or.inr ⟨by omega, by omega⟩))

theorem sameGroup_symm (p q : Nat × Nat) (h : sameGroup p q) :
    sameGroup q p := by
  rcases h with h | h | h
  · exact Or.inl h.symm
  · exact Or.inr (Or.inl h.symm)
  · exact Or.inr (Or.inr ⟨h.1.symm, h.2.symm⟩)

/-- Placing a value accepted by `possible` on an empty cell preserves the
legality invariant. -/
theorem noConflict_setCell (b : Board) (k : Nat × Nat) (u : Nat)
    (hk1 : k.1 < 9) (hk2 : k.2 < 9) (hb : b k.1 k.2 = none)
    (hp : possible b k u = true) (hnc : noConflict b) :
    noConflict (setCell b k (some u)) := by
  have hscan := (possible_eq_true_iff b k u hk1 hk2).mp hp
  intro r1 hr1 c1 hc1 r2 hr2 c2 hc2 hne hsg
  by_cases e1 : r1 = k.1 ∧ c1 = k.2
  · by_cases e2 : r2 = k.1 ∧ c2 = k.2
    · exact absurd (by omega : r1 = r2 ∧ c1 = c2) (by tauto)
    · right
      rw [e1.1, e1.2, setCell_same, setCell_other _ _ _ _ _ e2]
      have hsg2 : sameGroup (r2, c2) k := by
        have : sameGroup (k.1, k.2) (r2, c2) := by
          rw [← e1.1, ← e1.2]; exact hsg
        have := sameGroup_symm _ _ this
        simpa using this
      intro heq
      exact hscan r2 hr2 c2 hc2 hsg2 heq.symm
  · rw [setCell_other _ _ _ _ _ e1]
    by_cases e2 : r2 = k.1 ∧ c2 = k.2
    · cases hb1 : b r1 c1 with
      | none => exact Or.inl rfl
      | some w =>
        right
        rw [e2.1, e2.2, setCell_same]
        have hsg1 : sameGroup (r1, c1) k := by
          have : sameGroup (r1, c1) (k.1, k.2) := by
            rw [← e2.1, ← e2.2]; exact hsg
          simpa using this
        intro heq
        exact hscan r1 hr1 c1 hc1 hsg1 (by rw [hb1, heq])
    · rw [setCell_other _ _ _ _ _ e2]
      exact hnc r1 hr1 c1 hc1 r2 hr2 c2 hc2 hne hsg

-- Characterisation of the candidate loop.  Provided the recursive call
-- restores the board on failure, the loop either fails with the board
-- restored and every legal candidate refuted, or succeeds on the first
-- legal candidate whose recursive call succeeds.

theorem tryList_char (rec : Board → Option Board × Board) (k : Nat × Nat)
    (hrestore : ∀ x, (rec x).1 = none → (rec x).2 = x) :
    ∀ n v b, b k.1 k.2 = none →
      (tryList rec b k (List.range' v n) = (none, b) ∧
        ∀ u, v ≤ u → u < v + n → possible b k u = true →
          (rec (setCell b k (some u))).1 = none)
      ∨ (∃ u t b2, v ≤ u ∧ u < v + n ∧ possible b k u = true ∧
          rec (setCell b k (some u)) = (some t, b2) ∧
          tryList rec b k (List.range' v n) = (some t, b2) ∧
          ∀ u2, v ≤ u2 → u2 < u → possible b k u2 = true →
            (rec (setCell b k (some u2))).1 = none) := by
  intro n
  induction n with
  | zero =>
    intro v b hb
    left
    constructor
    · rfl
    · intro u h1 h2
      omega
  | succ n ih =>
    intro v b hb
    rw [List.range'_succ v n 1]
    cases hp : possible b k v with
    | false =>
      have hstep : tryList rec b k (v :: List.range' (v + 1) n)
          = tryList rec b k (List.range' (v + 1) n) := by
        simp [tryList, hp]
      rw [hstep]
      rcases ih (v + 1) b hb with ⟨heq, hall⟩ | ⟨u, t, b2, hu1, hu2, hup, hrec, heq, hmin⟩
      · left
        refine ⟨heq, fun u h1 h2 hposs => ?_⟩
        rcases Nat.eq_or_lt_of_le h1 with h | h
        · rw [← h] at hposs
          rw [hp] at hposs
          cases hposs
        · exact hall u h (by omega) hposs
      · right
        refine ⟨u, t, b2, by omega, by omega, hup, hrec, heq, fun u2 h1 h2 hposs => ?_⟩
        rcases Nat.eq_or_lt_of_le h1 with h | h
        · rw [← h] at hposs
          rw [hp] at hposs
          cases hposs
        · exact hmin u2 h h2 hposs
    | true =>
      rcases hr : rec (setCell b k (some v)) with ⟨o, b2⟩
      cases o with
      | some t =>
        have hstep : tryList rec b k (v :: List.range' (v + 1) n) = (some t, b2) := by
          simp only [tryList, hp, if_true]
          rw [hr]
        right
        exact ⟨v, t, b2, Nat.le_refl v, by omega, hp, hr, hstep,
          fun u2 h1 h2 _ => by omega⟩
      | none =>
        have hx : b2 = setCell b k (some v) := by
          have := hrestore (setCell b k (some v)) (by rw [hr])
          rw [hr] at this
          exact this
        have hback : setCell b2 k none = b := by
          rw [hx, setCell_setCell, setCell_none_of_none _ _ hb]
        have hstep : tryList rec b k (v :: List.range' (v + 1) n)
            = tryList rec b k (List.range' (v + 1) n) := by
          simp only [tryList, hp, if_true]
          rw [hr]
          show tryList rec (setCell b2 k none) k (List.range' (v + 1) n)
            = tryList rec b k (List.range' (v + 1) n)
          rw [hback]
        rw [hstep]
        rcases ih (v + 1) b hb with ⟨heq, hall⟩ | ⟨u, t, b2x, hu1, hu2, hup, hrec, heq, hmin⟩
        · left
          refine ⟨heq, fun u h1 h2 hposs => ?_⟩
          rcases Nat.eq_or_lt_of_le h1 with h | h
          · rw [← h, hr]
          · exact hall u h (by omega) hposs
        · right
          refine ⟨u, t, b2x, by omega, by omega, hup, hrec, heq,
            fun u2 h1 h2 hposs => ?_⟩
          rcases Nat.eq_or_lt_of_le h1 with h | h
          · rw [← h, hr]
          · exact hmin u2 h h2 hposs

-- Unfolding helpers for solveF.

theorem solveF_zero (b : Board) (k : Nat × Nat) : solveF 0 b k = (none, b) := rfl

theorem solveF_succ_out (n : Nat) (b : Board) (k : Nat × Nat)
    (h : ¬(k.1 < 9 ∧ k.2 < 9)) : solveF (n + 1) b k = (some b, b) := by
  simp only [solveF, if_neg h]

theorem solveF_succ_none (n : Nat) (b : Board) (k : Nat × Nat)
    (h : k.1 < 9 ∧ k.2 < 9) (hbk : b k.1 k.2 = none) :
    solveF (n + 1) b k
      = tryList (fun b2 => solveF n b2 (next_key k.1 k.2)) b k (List.range 9) := by
  simp only [solveF, if_pos h, hbk]

theorem solveF_succ_some (n : Nat) (b : Board) (k : Nat × Nat)
    (h : k.1 < 9 ∧ k.2 < 9) (d : Nat) (hbk : b k.1 k.2 = some d) :
    solveF (n + 1) b k = solveF n b (next_key k.1 k.2) := by
  simp only [solveF, if_pos h, hbk]

-- On failure the board is restored to its initial contents: every
-- tentative assignment has been retracted.

theorem solveF_restore :
    ∀ n (b : Board) (k : Nat × Nat),
      (solveF n b k).1 = none → (solveF n b k).2 = b := by
  intro n
  induction n with
  | zero => intro b k _; rfl
  | succ n ih =>
    intro b k h
    by_cases hk : k.1 < 9 ∧ k.2 < 9
    · cases hbk : b k.1 k.2 with
      | none =>
        rw [solveF_succ_none n b k hk hbk, List.range_eq_range' 9] at h ⊢
        rcases tryList_char _ k (fun x hx => ih x _ hx) 9 0 b hbk with
          ⟨heq, _⟩ | ⟨u, t, b2, _, _, _, _, heq, _⟩
        · rw [heq]
        · rw [heq] at h
          cases h
      | some d =>
        rw [solveF_succ_some n b k hk d hbk] at h ⊢
        exact ih b _ h
    · rw [solveF_succ_out n b k hk] at h
      cases h

-- On success the final state of the board is the returned solution
-- (the Python function returns the board object itself).

theorem solveF_success_state :
    ∀ n (b : Board) (k : Nat × Nat) (t : Board),
      (solveF n b k).1 = some t → (solveF n b k).2 = t := by
  intro n
  induction n with
  | zero => intro b k t h; cases h
  | succ n ih =>
    intro b k t h
    by_cases hk : k.1 < 9 ∧ k.2 < 9
    · cases hbk : b k.1 k.2 with
      | none =>
        rw [solveF_succ_none n b k hk hbk, List.range_eq_range' 9] at h ⊢
        rcases tryList_char _ k (fun x hx => solveF_restore n x _ hx) 9 0 b hbk with
          ⟨heq, _⟩ | ⟨u, t2, b2, _, _, _, hrec, heq, _⟩
        · rw [heq] at h
          cases h
        · rw [heq] at h ⊢
          have ht : t2 = t := Option.some.inj h
          have := ih (setCell b k (some u)) (next_key k.1 k.2) t2 (by rw [hrec])
          rw [hrec] at this
          rw [← ht]
          exact this
      | some d =>
        rw [solveF_succ_some n b k hk d hbk] at h ⊢
        exact ih b _ t h
    · rw [solveF_succ_out n b k hk] at h ⊢
      exact (Option.some.inj h).symm ▸ rfl

-- Frame property: cells that lie before the cursor in row-major order,
-- cells outside the 9x9 range, and cells already holding a digit are
-- returned exactly as they were in the input board.

theorem solveF_frame :
    ∀ n (b : Board) (k : Nat × Nat) (t : Board), k.2 < 9 →
      (solveF n b k).1 = some t →
      ∀ r c, (¬(r < 9 ∧ c < 9) ∨ 9 * r + c < 9 * k.1 + k.2 ∨ b r c ≠ none) →
        t r c = b r c := by
  intro n
  induction n with
  | zero => intro b k t _ h; cases h
  | succ n ih =>
    intro b k t hk2 h r c hcond
    by_cases hk : k.1 < 9 ∧ k.2 < 9
    · have hnk2 : (next_key k.1 k.2).2 < 9 := next_key_snd k.1 k.2 hk2
      have hidx : 9 * (next_key k.1 k.2).1 + (next_key k.1 k.2).2
          = 9 * k.1 + k.2 + 1 := next_key_idx k.1 k.2 hk2
      cases hbk : b k.1 k.2 with
      | none =>
        rw [solveF_succ_none n b k hk hbk, List.range_eq_range' 9] at h
        rcases tryList_char _ k (fun x hx => solveF_restore n x _ hx) 9 0 b hbk with
          ⟨heq, _⟩ | ⟨u, t2, b2, _, hu9, _, hrec, heq, _⟩
        · rw [heq] at h
          cases h
        · rw [heq] at h
          have ht : t2 = t := Option.some.inj h
          rw [← ht]
          have hne : ¬(r = k.1 ∧ c = k.2) := by
            rcases hcond with hcond | hcond | hcond
            · intro hrc
              exact hcond ⟨hrc.1 ▸ hk.1, hrc.2 ▸ hk.2⟩
            · intro hrc
              omega
            · intro hrc
              rw [hrc.1, hrc.2] at hcond
              exact hcond hbk
          have hstep := ih (setCell b k (some u)) (next_key k.1 k.2) t2 hnk2
            (by rw [hrec]) r c ?_
          · rw [hstep, setCell_other _ _ _ _ _ hne]
          · rcases hcond with hcond | hcond | hcond
            · exact Or.inl hcond
            · exact Or.inr (Or.inl (by omega))
            · refine Or.inr (Or.inr ?_)
              rw [setCell_other _ _ _ _ _ hne]
              exact hcond
      | some d =>
        rw [solveF_succ_some n b k hk d hbk] at h
        refine ih b (next_key k.1 k.2) t hnk2 h r c ?_
        rcases hcond with hcond | hcond | hcond
        · exact Or.inl hcond
        · exact Or.inr (Or.inl (by omega))
        · exact Or.inr (Or.inr hcond)
    · rw [solveF_succ_out n b k hk] at h
      rw [← Option.some.inj h]

-- On success, every cell from the cursor onwards that was empty has been
-- filled with a value in [0, 9) (a digit 1 to 9).

theorem solveF_fills :
    ∀ n (b : Board) (k : Nat × Nat) (t : Board), k.2 < 9 →
      (solveF n b k).1 = some t →
      ∀ r c, r < 9 → c < 9 → 9 * k.1 + k.2 ≤ 9 * r + c → b r c = none →
        ∃ v, v < 9 ∧ t r c = some v := by
  intro n
  induction n with
  | zero => intro b k t _ h; cases h
  | succ n ih =>
    intro b k t hk2 h r c hr hc hge hnone
    by_cases hk : k.1 < 9 ∧ k.2 < 9
    · have hnk2 : (next_key k.1 k.2).2 < 9 := next_key_snd k.1 k.2 hk2
      have hidx : 9 * (next_key k.1 k.2).1 + (next_key k.1 k.2).2
          = 9 * k.1 + k.2 + 1 := next_key_idx k.1 k.2 hk2
      cases hbk : b k.1 k.2 with
      | none =>
        rw [solveF_succ_none n b k hk hbk, List.range_eq_range' 9] at h
        rcases tryList_char _ k (fun x hx => solveF_restore n x _ hx) 9 0 b hbk with
          ⟨heq, _⟩ | ⟨u, t2, b2, _, hu9, _, hrec, heq, _⟩
        · rw [heq] at h
          cases h
        · rw [heq] at h
          have ht : t2 = t := Option.some.inj h
          rw [← ht]
          by_cases hrc : r = k.1 ∧ c = k.2
          · refine ⟨u, by omega, ?_⟩
            have := solveF_frame n (setCell b k (some u)) (next_key k.1 k.2) t2
              hnk2 (by rw [hrec]) r c ?_
            · rw [this, hrc.1, hrc.2, setCell_same]
            · refine Or.inr (Or.inr ?_)
              rw [hrc.1, hrc.2, setCell_same]
              simp
          · refine ih (setCell b k (some u)) (next_key k.1 k.2) t2 hnk2
              (by rw [hrec]) r c hr hc (by omega) ?_
            rw [setCell_other _ _ _ _ _ hrc]
            exact hnone
      | some d =>
        rw [solveF_succ_some n b k hk d hbk] at h
        have hrc : ¬(r = k.1 ∧ c = k.2) := by
          intro hrc
          rw [hrc.1, hrc.2, hbk] at hnone
          cases hnone
        refine ih b (next_key k.1 k.2) t hnk2 h r c hr hc (by omega) hnone
    · exact absurd (by omega : 9 * r + c < 9 * k.1 + k.2) (by omega)

-- The search never places a value that conflicts with the board, so the
-- legality invariant is preserved from input to returned solution.

theorem solveF_noConflict :
    ∀ n (b : Board) (k : Nat × Nat) (t : Board),
      (solveF n b k).1 = some t → noConflict b → noConflict t := by
  intro n
  induction n with
  | zero => intro b k t h; cases h
  | succ n ih =>
    intro b k t h hnc
    by_cases hk : k.1 < 9 ∧ k.2 < 9
    · cases hbk : b k.1 k.2 with
      | none =>
        rw [solveF_succ_none n b k hk hbk, List.range_eq_range' 9] at h
        rcases tryList_char _ k (fun x hx => solveF_restore n x _ hx) 9 0 b hbk with
          ⟨heq, _⟩ | ⟨u, t2, b2, _, _, hup, hrec, heq, _⟩
        · rw [heq] at h
          cases h
        · rw [heq] at h
          have ht : t2 = t := Option.some.inj h
          rw [← ht]
          exact ih (setCell b k (some u)) (next_key k.1 k.2) t2 (by rw [hrec])
            (noConflict_setCell b k u hk.1 hk.2 hbk hup hnc)
      | some d =>
        rw [solveF_succ_some n b k hk d hbk] at h
        exact ih b (next_key k.1 k.2) t h hnc
    · rw [solveF_succ_out n b k hk] at h
      rw [← Option.some.inj h]
      exact hnc

-- Fuel 82 suffices: the fuelled search agrees with the direct embedding.
-- The fuel counts call frames, so 82 frames means a recursion depth of 81
-- below the initial call, one per cursor step over the 81 cells.

theorem solveM_eq_solveF_aux :
    ∀ n, 1 ≤ n → ∀ (b : Board) (k : Nat × Nat), k.2 < 9 →
      82 - (9 * k.1 + k.2) ≤ n → solveM b k = solveF n b k := by
  intro n
  induction n with
  | zero => intro h; omega
  | succ n ih =>
    intro _ b k hk2 hfuel
    by_cases hk : k.1 < 9 ∧ k.2 < 9
    · have hnk2 : (next_key k.1 k.2).2 < 9 := next_key_snd k.1 k.2 hk2
      have hidx : 9 * (next_key k.1 k.2).1 + (next_key k.1 k.2).2
          = 9 * k.1 + k.2 + 1 := next_key_idx k.1 k.2 hk2
      have hn1 : 1 ≤ n := by omega
      have hrec : ∀ b2, solveM b2 (next_key k.1 k.2) = solveF n b2 (next_key k.1 k.2) :=
        fun b2 => ih hn1 b2 (next_key k.1 k.2) hnk2 (by omega)
      rw [solveM]
      rw [dif_pos hk]
      cases hbk : b k.1 k.2 with
      | none =>
        rw [solveF_succ_none n b k hk hbk]
        have hfun : (fun b2 => solveM b2 (next_key k.1 k.2))
            = (fun b2 => solveF n b2 (next_key k.1 k.2)) := funext hrec
        rw [hfun]
      | some d =>
        rw [solveF_succ_some n b k hk d hbk]
        exact hrec b
    · rw [solveM, dif_neg hk, solveF_succ_out n b k hk]

theorem solveM_eq_solveF (b : Board) : solveM b (0, 0) = solveF 82 b (0, 0) :=
  solveM_eq_solveF_aux 82 (by omega) b (0, 0) (by omega) (by omega)

-- A board with no empty in-range cell is skipped over entirely and
-- returned as-is, whatever its contents.

theorem solveF_of_full :
    ∀ n (b : Board) (k : Nat × Nat), 1 ≤ n → k.2 < 9 →
      82 - (9 * k.1 + k.2) ≤ n →
      (∀ r, r < 9 → ∀ c, c < 9 → b r c ≠ none) →
      solveF n b k = (some b, b) := by
  intro n
  induction n with
  | zero => intro b k h; omega
  | succ n ih =>
    intro b k _ hk2 hfuel hfull
    by_cases hk : k.1 < 9 ∧ k.2 < 9
    · have hnk2 : (next_key k.1 k.2).2 < 9 := next_key_snd k.1 k.2 hk2
      have hidx : 9 * (next_key k.1 k.2).1 + (next_key k.1 k.2).2
          = 9 * k.1 + k.2 + 1 := next_key_idx k.1 k.2 hk2
      cases hbk : b k.1 k.2 with
      | none => exact absurd hbk (hfull k.1 hk.1 k.2 hk.2)
      | some d =>
        rw [solveF_succ_some n b k hk d hbk]
        exact ih b (next_key k.1 k.2) (by omega) hnk2 (by omega) hfull
    · exact solveF_succ_out n b k hk

/-- A board with no empty cell is returned unchanged by `solve`. -/
theorem solve_of_full (b : Board)
    (hfull : ∀ r, r < 9 → ∀ c, c < 9 → b r c ≠ none) : solve b = some b := by
  rw [solve, solveM_eq_solveF b,
    solveF_of_full 82 b (0, 0) (by omega) (by omega) (by omega) hfull]

/-- Any board returned by `solve` has every in-range cell filled. -/
theorem solve_full (b t : Board) (h : solve b = some t) :
    ∀ r, r < 9 → ∀ c, c < 9 → t r c ≠ none := by
  rw [solve, solveM_eq_solveF b] at h
  intro r hr c hc
  cases hbrc : b r c with
  | none =>
    obtain ⟨v, _, hv⟩ := solveF_fills 82 b (0, 0) t (by omega) h r c hr hc
      (by omega) hbrc
    rw [hv]
    simp
  | some d =>
    rw [solveF_frame 82 b (0, 0) t (by omega) h r c (Or.inr (Or.inr (by
      rw [hbrc]; simp))), hbrc]
    simp

-- Counting: a full, injective assignment of nine cells to values in
-- [0, 9) hits every value exactly once.

theorem filter_card_one_of_unique {p : Nat → Prop} [DecidablePred p]
    (i0 : Nat) (hi0 : i0 < 9) (hp : p i0)
    (huniq : ∀ j, j < 9 → p j → j = i0) :
    ((Finset.range 9).filter p).card = 1 := by
  have : (Finset.range 9).filter p = {i0} := by
    apply Finset.eq_singleton_iff_unique_mem.mpr
    constructor
    · exact Finset.mem_filter.mpr ⟨Finset.mem_range.mpr hi0, hp⟩
    · intro x hx
      have hx2 := Finset.mem_filter.mp hx
      exact huniq x (Finset.mem_range.mp hx2.1) hx2.2
  rw [this]
  rfl

theorem group_surj (g : Nat → Option Nat)
    (hfull : ∀ i, i < 9 → ∃ w, w < 9 ∧ g i = some w)
    (hinj : ∀ i j v, i < 9 → j < 9 → g i = some v → g j = some v → i = j) :
    ∀ v, v < 9 → ∃ i, i < 9 ∧ g i = some v := by
  have hf : ∀ i : Fin 9, ∃ w : Fin 9, g i.val = some w.val := by
    intro i
    obtain ⟨w, hw, hg⟩ := hfull i.val i.isLt
    exact ⟨⟨w, hw⟩, hg⟩
  choose f hfspec using hf
  have hfinj : Function.Injective f := by
    intro i j hij
    apply Fin.ext
    exact hinj i.val j.val (f i).val i.isLt j.isLt (hfspec i)
      (by rw [hfspec j, hij])
  have hfsurj : Function.Surjective f :=
    Finite.injective_iff_surjective.mp hfinj
  intro v hv
  obtain ⟨i, hi⟩ := hfsurj ⟨v, hv⟩
  refine ⟨i.val, i.isLt, ?_⟩
  rw [hfspec i, hi]

theorem group_card_one (g : Nat → Option Nat)
    (hfull : ∀ i, i < 9 → ∃ w, w < 9 ∧ g i = some w)
    (hinj : ∀ i j v, i < 9 → j < 9 → g i = some v → g j = some v → i = j) :
    ∀ v, v < 9 → ((Finset.range 9).filter (fun i => g i = some v)).card = 1 := by
  intro v hv
  obtain ⟨i0, hi0, hg0⟩ := group_surj g hfull hinj v hv
  exact filter_card_one_of_unique i0 hi0 hg0
    (fun j hj hg => hinj j i0 v hj hi0 hg hg0)

/-- A full board satisfying the legality invariant is a valid solution:
each digit appears exactly once in every row, column and box. -/
theorem valid_of_noConflict_full (s : Board)
    (hfull : ∀ r, r < 9 → ∀ c, c < 9 → ∃ v, v < 9 ∧ s r c = some v)
    (hnc : noConflict s) : validSolution s := by
  intro v hv
  refine ⟨fun r hr => ?_, fun c hc => ?_, fun g hg => ?_⟩
  · refine group_card_one (fun c => s r c) (fun i hi => hfull r hr i hi)
      (fun i j w hi hj hgi hgj => ?_) v hv
    have hgi2 : s r i = some w := hgi
    have hgj2 : s r j = some w := hgj
    by_contra hne
    rcases hnc r hr i hi r hr j hj (Or.inr hne) (Or.inl rfl) with h | h
    · rw [hgi2] at h
      cases h
    · rw [hgi2, hgj2] at h
      exact h rfl
  · refine group_card_one (fun r => s r c) (fun i hi => hfull i hi c hc)
      (fun i j w hi hj hgi hgj => ?_) v hv
    have hgi2 : s i c = some w := hgi
    have hgj2 : s j c = some w := hgj
    by_contra hne
    rcases hnc i hi c hc j hj c hc (Or.inl hne) (Or.inr (Or.inl rfl)) with h | h
    · rw [hgi2] at h
      cases h
    · rw [hgi2, hgj2] at h
      exact h rfl
  · refine group_card_one (fun i => s (boxCell g i).1 (boxCell g i).2)
      (fun i hi => hfull (boxCell g i).1 (by simp [boxCell]; omega)
        (boxCell g i).2 (by simp [boxCell]; omega))
      (fun i j w hi hj hgi hgj => ?_) v hv
    have hgi2 : s (boxCell g i).1 (boxCell g i).2 = some w := hgi
    have hgj2 : s (boxCell g j).1 (boxCell g j).2 = some w := hgj
    by_contra hne
    have hb1 : (boxCell g i).1 < 9 := by simp [boxCell]; omega
    have hb2 : (boxCell g i).2 < 9 := by simp [boxCell]; omega
    have hb3 : (boxCell g j).1 < 9 := by simp [boxCell]; omega
    have hb4 : (boxCell g j).2 < 9 := by simp [boxCell]; omega
    have hdiff : (boxCell g i).1 ≠ (boxCell g j).1 ∨ (boxCell g i).2 ≠ (boxCell g j).2 := by
      simp only [boxCell]
      omega
    have hsg : sameGroup ((boxCell g i).1, (boxCell g i).2)
        ((boxCell g j).1, (boxCell g j).2) := by
      refine Or.inr (Or.inr ⟨?_, ?_⟩) <;> simp only [boxCell] <;> omega
    rcases hnc (boxCell g i).1 hb1 (boxCell g i).2 hb2 (boxCell g j).1 hb3
      (boxCell g j).2 hb4 hdiff hsg with h | h
    · rw [hgi2] at h
      cases h
    · rw [hgi2, hgj2] at h
      exact h rfl

/-- Two distinct cells of a shared group holding the same digit rule out
validity. -/
theorem not_valid_of_conflict (s : Board) (r1 c1 r2 c2 v : Nat)
    (hr1 : r1 < 9) (hc1 : c1 < 9) (hr2 : r2 < 9) (hc2 : c2 < 9)
    (hne : r1 ≠ r2 ∨ c1 ≠ c2) (hsg : sameGroup (r1, c1) (r2, c2))
    (hv : v < 9) (h1 : s r1 c1 = some v) (h2 : s r2 c2 = some v) :
    ¬ validSolution s := by
  intro hvalid
  obtain ⟨hrow, hcol, hbox⟩ := hvalid v hv
  rcases hsg with hsg | hsg | hsg
  · have e : r1 = r2 := hsg
    have hcn : c1 ≠ c2 := by tauto
    have hsub : ({c1, c2} : Finset Nat) ⊆
        (Finset.range 9).filter (fun c => s r1 c = some v) := by
      intro x hx
      rcases Finset.mem_insert.mp hx with hx | hx
      · subst hx
        exact Finset.mem_filter.mpr ⟨Finset.mem_range.mpr hc1, h1⟩
      · rw [Finset.mem_singleton.mp hx]
        refine Finset.mem_filter.mpr ⟨Finset.mem_range.mpr hc2, ?_⟩
        rw [e]
        exact h2
    have hcard := Finset.card_le_card hsub
    rw [hrow r1 hr1, Finset.card_insert_of_not_mem (by simp [hcn]),
      Finset.card_singleton] at hcard
    omega
  · have e : c1 = c2 := hsg
    have hrn : r1 ≠ r2 := by tauto
    have hsub : ({r1, r2} : Finset Nat) ⊆
        (Finset.range 9).filter (fun r => s r c1 = some v) := by
      intro x hx
      rcases Finset.mem_insert.mp hx with hx | hx
      · subst hx
        exact Finset.mem_filter.mpr ⟨Finset.mem_range.mpr hr1, h1⟩
      · rw [Finset.mem_singleton.mp hx]
        refine Finset.mem_filter.mpr ⟨Finset.mem_range.mpr hr2, ?_⟩
        rw [e]
        exact h2
    have hcard := Finset.card_le_card hsub
    rw [hcol c1 hc1, Finset.card_insert_of_not_mem (by simp [hrn]),
      Finset.card_singleton] at hcard
    omega
  · have e1 : r1 / 3 = r2 / 3 := hsg.1
    have e2 : c1 / 3 = c2 / 3 := hsg.2
    have hgid : 3 * (r1 / 3) + c1 / 3 < 9 := by omega
    have hi1 : 3 * (r1 % 3) + c1 % 3 < 9 := by omega
    have hi2 : 3 * (r2 % 3) + c2 % 3 < 9 := by omega
    have hbc1 : boxCell (3 * (r1 / 3) + c1 / 3) (3 * (r1 % 3) + c1 % 3) = (r1, c1) := by
      simp only [boxCell, Prod.mk.injEq]
      omega
    have hbc2 : boxCell (3 * (r1 / 3) + c1 / 3) (3 * (r2 % 3) + c2 % 3) = (r2, c2) := by
      simp only [boxCell, Prod.mk.injEq]
      omega
    have hin : 3 * (r1 % 3) + c1 % 3 ≠ 3 * (r2 % 3) + c2 % 3 := by omega
    have hsub : ({3 * (r1 % 3) + c1 % 3, 3 * (r2 % 3) + c2 % 3} : Finset Nat) ⊆
        (Finset.range 9).filter
          (fun i => s (boxCell (3 * (r1 / 3) + c1 / 3) i).1
            (boxCell (3 * (r1 / 3) + c1 / 3) i).2 = some v) := by
      intro x hx
      rcases Finset.mem_insert.mp hx with hx | hx
      · subst hx
        refine Finset.mem_filter.mpr ⟨Finset.mem_range.mpr hi1, ?_⟩
        rw [hbc1]
        exact h1
      · rw [Finset.mem_singleton.mp hx]
        refine Finset.mem_filter.mpr ⟨Finset.mem_range.mpr hi2, ?_⟩
        rw [hbc2]
        exact h2
    have hcard := Finset.card_le_card hsub
    rw [hbox (3 * (r1 / 3) + c1 / 3) hgid,
      Finset.card_insert_of_not_mem (by simp [hin]),
      Finset.card_singleton] at hcard
    omega

-- The search reads only in-range cells: boards agreeing on the 81 keys
-- of the dict are treated identically.

theorem list_any_congr (l : List Nat) (f g : Nat → Bool)
    (h : ∀ x, x ∈ l → f x = g x) : l.any f = l.any g := by
  induction l with
  | nil => rfl
  | cons a l ih =>
    simp only [List.any_cons]
    rw [h a (List.mem_cons_self a l), ih (fun x hx => h x (List.mem_cons_of_mem a hx))]

theorem possible_congr (b b2 : Board) (k : Nat × Nat) (v : Nat)
    (hk1 : k.1 < 9) (hk2 : k.2 < 9) (h : agreeIn b b2) :
    possible b k v = possible b2 k v := by
  have e1 : (List.range 9).any (fun c => b k.1 c == some v)
      = (List.range 9).any (fun c => b2 k.1 c == some v) :=
    list_any_congr _ _ _ (fun c hc => by
      show (b k.1 c == some v) = (b2 k.1 c == some v)
      rw [h k.1 hk1 c (List.mem_range.mp hc)])
  have e2 : (List.range 9).any (fun r => b r k.2 == some v)
      = (List.range 9).any (fun r => b2 r k.2 == some v) :=
    list_any_congr _ _ _ (fun r hr => by
      show (b r k.2 == some v) = (b2 r k.2 == some v)
      rw [h r (List.mem_range.mp hr) k.2 hk2])
  have e3 : (List.range 3).any (fun dr => (List.range 3).any (fun dc =>
        b (3 * (k.1 / 3) + dr) (3 * (k.2 / 3) + dc) == some v))
      = (List.range 3).any (fun dr => (List.range 3).any (fun dc =>
        b2 (3 * (k.1 / 3) + dr) (3 * (k.2 / 3) + dc) == some v)) :=
    list_any_congr _ _ _ (fun dr hdr => by
      show (List.range 3).any (fun dc =>
          b (3 * (k.1 / 3) + dr) (3 * (k.2 / 3) + dc) == some v)
        = (List.range 3).any (fun dc =>
          b2 (3 * (k.1 / 3) + dr) (3 * (k.2 / 3) + dc) == some v)
      refine list_any_congr _ _ _ (fun dc hdc => ?_)
      show (b (3 * (k.1 / 3) + dr) (3 * (k.2 / 3) + dc) == some v)
        = (b2 (3 * (k.1 / 3) + dr) (3 * (k.2 / 3) + dc) == some v)
      have hdr9 : 3 * (k.1 / 3) + dr < 9 := by
        have := List.mem_range.mp hdr
        omega
      have hdc9 : 3 * (k.2 / 3) + dc < 9 := by
        have := List.mem_range.mp hdc
        omega
      rw [h _ hdr9 _ hdc9])
  rw [possible, possible, e1, e2, e3]

theorem tryList_congr (rec rec2 : Board → Option Board × Board)
    (k : Nat × Nat) (hk1 : k.1 < 9) (hk2 : k.2 < 9)
    (hrec : ∀ x y, agreeIn x y →
      (((rec x).1 = none ↔ (rec2 y).1 = none) ∧ agreeIn (rec x).2 (rec2 y).2)) :
    ∀ (l : List Nat) (b b2 : Board), agreeIn b b2 →
      (((tryList rec b k l).1 = none ↔ (tryList rec2 b2 k l).1 = none) ∧
        agreeIn (tryList rec b k l).2 (tryList rec2 b2 k l).2) := by
  intro l
  induction l with
  | nil =>
    intro b b2 hag
    exact ⟨Iff.rfl, hag⟩
  | cons v vs ih =>
    intro b b2 hag
    have hp : possible b k v = possible b2 k v :=
      possible_congr b b2 k v hk1 hk2 hag
    cases hpv : possible b k v with
    | false =>
      have hstep : tryList rec b k (v :: vs) = tryList rec b k vs := by
        simp [tryList, hpv]
      have hstep2 : tryList rec2 b2 k (v :: vs) = tryList rec2 b2 k vs := by
        simp [tryList, ← hp, hpv]
      rw [hstep, hstep2]
      exact ih b b2 hag
    | true =>
      have hagset : agreeIn (setCell b k (some v)) (setCell b2 k (some v)) :=
        setCell_agreeIn b b2 k (some v) hag
      obtain ⟨hiff, hag2⟩ := hrec _ _ hagset
      rcases h1 : rec (setCell b k (some v)) with ⟨o1, c1⟩
      rcases h2 : rec2 (setCell b2 k (some v)) with ⟨o2, c2⟩
      rw [h1, h2] at hiff hag2
      have hstep : tryList rec b k (v :: vs)
          = match (o1, c1) with
            | (some sol, x) => (some sol, x)
            | (none, x) => tryList rec (setCell x k none) k vs := by
        simp only [tryList, hpv, if_true]
        rw [h1]
      have hstep2 : tryList rec2 b2 k (v :: vs)
          = match (o2, c2) with
            | (some sol, x) => (some sol, x)
            | (none, x) => tryList rec2 (setCell x k none) k vs := by
        simp only [tryList, ← hp, hpv, if_true]
        rw [h2]
      cases o1 with
      | some t1 =>
        cases o2 with
        | some t2 =>
          rw [hstep, hstep2]
          refine ⟨by simp, hag2⟩
        | none =>
          exact absurd (hiff.mpr rfl) (by simp)
      | none =>
        cases o2 with
        | some t2 =>
          exact absurd (hiff.mp rfl) (by simp)
        | none =>
          rw [hstep, hstep2]
          show ((tryList rec (setCell c1 k none) k vs).1 = none ↔
              (tryList rec2 (setCell c2 k none) k vs).1 = none) ∧
            agreeIn (tryList rec (setCell c1 k none) k vs).2
              (tryList rec2 (setCell c2 k none) k vs).2
          exact ih _ _ (setCell_agreeIn c1 c2 k none hag2)

theorem solveF_congr :
    ∀ n (k : Nat × Nat) (b b2 : Board), agreeIn b b2 →
      (((solveF n b k).1 = none ↔ (solveF n b2 k).1 = none) ∧
        agreeIn (solveF n b k).2 (solveF n b2 k).2) := by
  intro n
  induction n with
  | zero => intro k b b2 hag; exact ⟨Iff.rfl, hag⟩
  | succ n ih =>
    intro k b b2 hag
    by_cases hk : k.1 < 9 ∧ k.2 < 9
    · have hbk : b k.1 k.2 = b2 k.1 k.2 := hag k.1 hk.1 k.2 hk.2
      cases hb : b k.1 k.2 with
      | none =>
        rw [solveF_succ_none n b k hk hb,
          solveF_succ_none n b2 k hk (by rw [← hbk]; exact hb)]
        exact tryList_congr _ _ k hk.1 hk.2
          (fun x y hxy => ih (next_key k.1 k.2) x y hxy) (List.range 9) b b2 hag
      | some d =>
        rw [solveF_succ_some n b k hk d hb,
          solveF_succ_some n b2 k hk d (by rw [← hbk]; exact hb)]
        exact ih (next_key k.1 k.2) b b2 hag
    · rw [solveF_succ_out n b k hk, solveF_succ_out n b2 k hk]
      exact ⟨by simp, hag⟩

-- The search finds a solution whenever a valid completion exists, and
-- the solution found is lexicographically at most any valid completion
-- (cells in row-major order, candidate digits in ascending order).

theorem lexLEfrom_mono (k k2 : Nat × Nat)
    (h : 9 * k.1 + k.2 ≤ 9 * k2.1 + k2.2) (s t : Board)
    (hlex : lexLEfrom k2 s t) : lexLEfrom k s t := by
  rcases hlex with he | ⟨r, c, hr, hc, hge, hag, hvw⟩
  · exact Or.inl he
  · exact Or.inr ⟨r, c, hr, hc, by omega, hag, hvw⟩

theorem solveF_finds :
    ∀ n, 1 ≤ n → ∀ (b : Board) (k : Nat × Nat) (s : Board), k.2 < 9 →
      82 - (9 * k.1 + k.2) ≤ n → CompFrom b k s →
      ∃ t, (solveF n b k).1 = some t ∧ lexLEfrom k t s := by
  intro n
  induction n with
  | zero => intro h; omega
  | succ n ih =>
    intro _ b k s hk2 hfuel hcomp
    obtain ⟨hE0, hE1, hE4, hE2, hE3⟩ := hcomp
    by_cases hk : k.1 < 9 ∧ k.2 < 9
    · have hnk2 : (next_key k.1 k.2).2 < 9 := next_key_snd k.1 k.2 hk2
      have hidx : 9 * (next_key k.1 k.2).1 + (next_key k.1 k.2).2
          = 9 * k.1 + k.2 + 1 := next_key_idx k.1 k.2 hk2
      have hn1 : 1 ≤ n := by omega
      cases hbk : b k.1 k.2 with
      | some d =>
        have hcomp2 : CompFrom b (next_key k.1 k.2) s := by
          refine ⟨?_, hE1, hE4, hE2, hE3⟩
          intro r c hr hc hlt
          by_cases he : 9 * r + c < 9 * k.1 + k.2
          · exact hE0 r c hr hc he
          · have hrc : r = k.1 ∧ c = k.2 := by omega
            rw [hrc.1, hrc.2]
            exact hE1 k.1 k.2 (by rw [hbk]; simp)
        obtain ⟨t, ht, hlex⟩ := ih hn1 b (next_key k.1 k.2) s hnk2 (by omega) hcomp2
        rw [solveF_succ_some n b k hk d hbk]
        exact ⟨t, ht, lexLEfrom_mono k _ (by omega) t s hlex⟩
      | none =>
        obtain ⟨w, hw9, hsw⟩ := hE2 k.1 hk.1 k.2 hk.2
        have hposs : possible b k w = true := by
          rw [possible_eq_true_iff b k w hk.1 hk.2]
          intro r hr c hc hsg heq
          by_cases hrc : r = k.1 ∧ c = k.2
          · rw [hrc.1, hrc.2, hbk] at heq
            cases heq
          · have hsrc : s r c = some w := by
              rw [hE1 r c (by rw [heq]; simp)]
              exact heq
            have hsg2 : sameGroup (r, c) (k.1, k.2) := hsg
            rcases hE3 r hr c hc k.1 hk.1 k.2 hk.2 (not_and_or.mp hrc) hsg2 with
              hbad | hbad
            · rw [hsrc] at hbad
              cases hbad
            · rw [hsrc, hsw] at hbad
              exact hbad rfl
        have hcomp2 : CompFrom (setCell b k (some w)) (next_key k.1 k.2) s := by
          refine ⟨?_, ?_, ?_, hE2, hE3⟩
          · intro r c hr hc hlt
            by_cases hrc : r = k.1 ∧ c = k.2
            · rw [hrc.1, hrc.2, setCell_same]
              exact hsw
            · rw [setCell_other _ _ _ _ _ hrc]
              refine hE0 r c hr hc ?_
              rcases not_and_or.mp hrc with h | h <;> omega
          · intro r c hne
            by_cases hrc : r = k.1 ∧ c = k.2
            · rw [hrc.1, hrc.2, setCell_same]
              exact hsw
            · rw [setCell_other _ _ _ _ _ hrc] at hne ⊢
              exact hE1 r c hne
          · intro r c hout
            have hrc : ¬(r = k.1 ∧ c = k.2) := by
              intro hrc
              rw [hrc.1, hrc.2] at hout
              rcases hout with h | h <;> omega
            rw [setCell_other _ _ _ _ _ hrc]
            exact hE4 r c hout
        obtain ⟨t1, ht1a, hlex1⟩ := ih hn1 (setCell b k (some w))
          (next_key k.1 k.2) s hnk2 (by omega) hcomp2
        rw [solveF_succ_none n b k hk hbk, List.range_eq_range' 9]
        rcases tryList_char _ k (fun x hx => solveF_restore n x _ hx) 9 0 b hbk with
          ⟨heq, hallfail⟩ | ⟨u, t, b2, _, hu9, hup, hrec, heq, hmin⟩
        · have hfail : (solveF n (setCell b k (some w)) (next_key k.1 k.2)).1 = none :=
            hallfail w (by omega) (by omega) hposs
          rw [ht1a] at hfail
          cases hfail
        · have hu_le_w : u ≤ w := by
            by_contra hgt
            push_neg at hgt
            have hfail : (solveF n (setCell b k (some w)) (next_key k.1 k.2)).1 = none :=
              hmin w (by omega) hgt hposs
            rw [ht1a] at hfail
            cases hfail
          have hrecsome : (solveF n (setCell b k (some u)) (next_key k.1 k.2)).1
              = some t := by
            have h2 : solveF n (setCell b k (some u)) (next_key k.1 k.2)
                = (some t, b2) := hrec
            rw [h2]
          rw [heq]
          rcases Nat.eq_or_lt_of_le hu_le_w with hew | hlt
          · rw [hew] at hrecsome
            rw [ht1a] at hrecsome
            have ht : t1 = t := Option.some.inj hrecsome
            refine ⟨t, rfl, ?_⟩
            rw [← ht]
            exact lexLEfrom_mono k _ (by omega) t1 s hlex1
          · have htk : t k.1 k.2 = some u := by
              have hframe := solveF_frame n (setCell b k (some u))
                (next_key k.1 k.2) t hnk2 hrecsome k.1 k.2
                (Or.inr (Or.inr (by rw [setCell_same]; simp)))
              rw [hframe, setCell_same]
            refine ⟨t, rfl, Or.inr ⟨k.1, k.2, hk.1, hk.2, by omega, ?_,
              u, w, htk, hsw, hlt⟩⟩
            intro r2 c2 hr2 hc2 hlt2
            have hrc : ¬(r2 = k.1 ∧ c2 = k.2) := by
              intro hrc
              rw [hrc.1, hrc.2] at hlt2
              omega
            have hframe := solveF_frame n (setCell b k (some u))
              (next_key k.1 k.2) t hnk2 hrecsome r2 c2
              (Or.inr (Or.inl (by omega)))
            rw [hframe, setCell_other _ _ _ _ _ hrc]
            exact (hE0 r2 c2 hr2 hc2 hlt2).symm
    · have hk1 : 9 ≤ k.1 := by omega
      have hsb : s = b := by
        funext r c
        by_cases hrc : r < 9 ∧ c < 9
        · exact hE0 r c hrc.1 hrc.2 (by omega)
        · refine hE4 r c ?_
          rcases not_and_or.mp hrc with h | h <;> omega
      rw [solveF_succ_out n b k hk]
      exact ⟨b, rfl, Or.inl hsb.symm⟩

-- Claim theorems.

/-- Claim C1, counterexample to the claim as stated: the fully-given
board holding the digit 1 in all 81 cells is returned by `solve` as a
successful result (the solver never validates given cells), yet its rows,
columns and boxes do not contain each digit exactly once. -/
theorem c1_counterexample :
    solve bAll0 = some bAll0 ∧ ¬ validSolution bAll0 :=
  ⟨solve_of_full bAll0 (by decide), by decide⟩

/-- Claim C1, amended: if the input grid's given digits are in range and
no two equal given digits share a row, column or box, then any grid that
`solve` returns contains each digit 1 to 9 exactly once in every row,
every column and every box. -/
theorem c1_solution_valid (b s : Board)
    (hwf : ∀ r, r < 9 → ∀ c, c < 9 → (b r c).getD 0 < 9)
    (hnc : noConflict b) (hs : solve b = some s) : validSolution s := by
  rw [solve, solveM_eq_solveF b] at hs
  refine valid_of_noConflict_full s ?_ (solveF_noConflict 82 b (0, 0) s hs hnc)
  intro r hr c hc
  cases hbrc : b r c with
  | none =>
    exact solveF_fills 82 b (0, 0) s (by omega) hs r c hr hc (by omega) hbrc
  | some d =>
    have hfr := solveF_frame 82 b (0, 0) s (by omega) hs r c
      (Or.inr (Or.inr (by rw [hbrc]; simp)))
    refine ⟨d, ?_, by rw [hfr, hbrc]⟩
    have h2 := hwf r hr c hc
    rw [hbrc] at h2
    simpa using h2

/-- Claim C1, witness: a concrete valid completion of a concrete grid. -/
theorem c1_witness : validSolution bDemo :=
  c1_solution_valid bDemo bDemo (by decide) (by decide)
    (solve_of_full bDemo (by decide))

/-- Claim C2, counterexample to the claim as stated: a grid with two
identical given digits in the same row (indeed in every row) on which
`solve` returns a grid instead of reporting unsatisfiability; no initial
validation takes place. -/
theorem c2_counterexample :
    (bAll0 0 0 = some 0 ∧ bAll0 0 1 = some 0 ∧ sameGroup (0, 0) (0, 1)) ∧
      solve bAll0 = some bAll0 :=
  ⟨⟨rfl, rfl, Or.inl rfl⟩, solve_of_full bAll0 (by decide)⟩

/-- Claim C2, amended: the solver performs no initial validation and may
return a grid even when two identical given digits share a rule group,
but any grid it returns then still contains the duplicated digits, so it
never presents a grid satisfying the validity invariant as the solution
of such a puzzle. -/
theorem c2_dup_never_valid (b s : Board) (r1 c1 r2 c2 v : Nat)
    (hr1 : r1 < 9) (hc1 : c1 < 9) (hr2 : r2 < 9) (hc2 : c2 < 9)
    (hne : r1 ≠ r2 ∨ c1 ≠ c2) (hsg : sameGroup (r1, c1) (r2, c2))
    (hv : v < 9) (h1 : b r1 c1 = some v) (h2 : b r2 c2 = some v)
    (hs : solve b = some s) : ¬ validSolution s := by
  rw [solve, solveM_eq_solveF b] at hs
  have hs1 : s r1 c1 = some v := by
    rw [solveF_frame 82 b (0, 0) s (by omega) hs r1 c1
      (Or.inr (Or.inr (by rw [h1]; simp)))]
    exact h1
  have hs2 : s r2 c2 = some v := by
    rw [solveF_frame 82 b (0, 0) s (by omega) hs r2 c2
      (Or.inr (Or.inr (by rw [h2]; simp)))]
    exact h2
  exact not_valid_of_conflict s r1 c1 r2 c2 v hr1 hc1 hr2 hc2 hne hsg hv hs1 hs2

/-- Claim C2, witness: the all-ones grid has a duplicated given in row 0
and the grid `solve` returns for it is not a valid solution. -/
theorem c2_witness : ¬ validSolution bAll0 :=
  c2_dup_never_valid bAll0 bAll0 0 0 0 1 0 (by decide) (by decide) (by decide)
    (by decide) (Or.inr (by decide)) (Or.inl rfl) (by decide) rfl rfl
    (solve_of_full bAll0 (by decide))

/-- Claim C3: if the input grid has at least one valid completion, then
`solve` succeeds and the grid it returns is itself a valid completion that
is lexicographically at most the given one, cells compared in row-major
order from (0,0) and digits in ascending order; since this holds for every
valid completion, the returned grid is the lexicographically smallest. -/
theorem c3_lex_minimal (b s : Board) (hs : IsCompletion b s) :
    ∃ t, solve b = some t ∧ IsCompletion b t ∧ validSolution t ∧ lexLE t s := by
  have hs' : CompFrom b (0, 0) s := hs
  obtain ⟨hE0, hE1, hE4, hE2, hE3⟩ := hs
  have hnc : noConflict b := by
    intro r1 h1 c1 h2 r2 h3 c2 h4 hne hsg
    cases hb1 : b r1 c1 with
    | none => exact Or.inl rfl
    | some w =>
      right
      intro heq
      have hh1 : s r1 c1 = some w := by
        rw [hE1 r1 c1 (by rw [hb1]; simp), hb1]
      have hh2 : s r2 c2 = some w := by
        rw [hE1 r2 c2 (by rw [← heq]; simp), ← heq]
      rcases hE3 r1 h1 c1 h2 r2 h3 c2 h4 hne hsg with hbad | hbad
      · rw [hh1] at hbad
        cases hbad
      · rw [hh1, hh2] at hbad
        exact hbad rfl
  obtain ⟨t, ht, hlex⟩ := solveF_finds 82 (by omega) b (0, 0) s (by omega)
    (by omega) hs'
  have hsolve : solve b = some t := by
    rw [solve, solveM_eq_solveF b]
    exact ht
  have hcompt : IsCompletion b t := ?_
  case _ =>
    exact ⟨t, hsolve, hcompt,
      valid_of_noConflict_full t (fun r hr c hc => hcompt.2.2.2.1 r hr c hc)
        hcompt.2.2.2.2, hlex⟩
  refine ⟨fun r c _ _ hlt => absurd hlt (by omega), ?_, ?_, ?_, ?_⟩
  · intro r c hne
    exact solveF_frame 82 b (0, 0) t (by omega) ht r c (Or.inr (Or.inr hne))
  · intro r c hout
    refine solveF_frame 82 b (0, 0) t (by omega) ht r c (Or.inl ?_)
    omega
  · intro r hr c hc
    cases hbrc : b r c with
    | none =>
      exact solveF_fills 82 b (0, 0) t (by omega) ht r c hr hc (by omega) hbrc
    | some d =>
      have hfr := solveF_frame 82 b (0, 0) t (by omega) ht r c
        (Or.inr (Or.inr (by rw [hbrc]; simp)))
      obtain ⟨v, hv9, hsv⟩ := hE2 r hr c hc
      have hsd : s r c = some d := by
        rw [hE1 r c (by rw [hbrc]; simp), hbrc]
      rw [hsd] at hsv
      refine ⟨d, by rw [Option.some.inj hsv]; omega, by rw [hfr, hbrc]⟩
  · exact solveF_noConflict 82 b (0, 0) t ht hnc

/-- Claim C3, witness: the demonstration grid is a valid completion of
itself, so `solve` returns a completion lexicographically at most it. -/
theorem c3_witness :
    ∃ t, solve bDemo = some t ∧ IsCompletion bDemo t ∧ validSolution t ∧
      lexLE t bDemo :=
  c3_lex_minimal bDemo bDemo
    ⟨fun r c _ _ hlt => absurd hlt (by omega), fun _ _ _ => rfl,
      fun _ _ _ => rfl, by decide, by decide⟩

/-- Claim C4: every cell holding a given digit in the input holds the
same digit in any grid returned by `solve`; non-empty cells are never
altered. -/
theorem c4_givens_preserved (b s : Board) (hs : solve b = some s) :
    ∀ r c d, b r c = some d → s r c = some d := by
  rw [solve, solveM_eq_solveF b] at hs
  intro r c d hd
  rw [solveF_frame 82 b (0, 0) s (by omega) hs r c
    (Or.inr (Or.inr (by rw [hd]; simp))), hd]

/-- Claim C4, witness: a given of the demonstration grid survives. -/
theorem c4_witness : bDemo 0 0 = some 0 :=
  c4_givens_preserved bDemo bDemo (solve_of_full bDemo (by decide)) 0 0 0
    (by decide)

/-- Claim C5: on an empty in-range cell and for a candidate digit, the
legality predicate accepts exactly when no other cell sharing a row,
column or box currently holds that digit (the predicate reads the board
and threads no state, so it cannot mutate the grid). -/
theorem c5_possible_iff (b : Board) (k : Nat × Nat) (v : Nat)
    (hk1 : k.1 < 9) (hk2 : k.2 < 9) (hv : v < 9)
    (hempty : b k.1 k.2 = none) :
    possible b k v = true ↔
      ∀ r, r < 9 → ∀ c, c < 9 → ¬(r = k.1 ∧ c = k.2) →
        sameGroup (r, c) (k.1, k.2) → b r c ≠ some v := by
  rw [possible_eq_true_iff b k v hk1 hk2]
  constructor
  · intro h r hr c hc _ hsg
    exact h r hr c hc hsg
  · intro h r hr c hc hsg
    by_cases hrc : r = k.1 ∧ c = k.2
    · rw [hrc.1, hrc.2, hempty]
      simp
    · exact h r hr c hc hrc hsg

/-- Claim C5, witness: the characterisation instantiated on the empty
grid at cell (0,0) and candidate digit 1. -/
theorem c5_witness :
    possible bEmpty (0, 0) 0 = true ↔
      ∀ r, r < 9 → ∀ c, c < 9 → ¬(r = 0 ∧ c = 0) →
        sameGroup (r, c) (0, 0) → bEmpty r c ≠ some 0 :=
  c5_possible_iff bEmpty (0, 0) 0 (by decide) (by decide) (by decide) rfl

/-- Claim C6: an already-complete valid grid is returned unchanged by
`solve` (the skip branch walks over all 81 given cells and the base case
returns the board object itself). -/
theorem c6_complete_roundtrip (b : Board)
    (hfull : ∀ r, r < 9 → ∀ c, c < 9 → b r c ≠ none)
    (hvalid : validSolution b) : solve b = some b :=
  solve_of_full b hfull

/-- Claim C6, witness: the demonstration grid is complete and valid, and
`solve` returns it unchanged. -/
theorem c6_witness : solve bDemo = some bDemo :=
  c6_complete_roundtrip bDemo (by decide) (by decide)

/-- Claim C7: `solve` terminates.  The direct embedding `solveM` (a total
function, whose recursion is justified by the strictly decreasing measure
81 - (9 row + col)) agrees with the fuel-bounded `solveF` given 82 call
frames, i.e. a recursion depth over cells of 81 below the initial call;
and each `next_key` step strictly increases the row-major cell index, a
finite total order with no revisits, while keeping the column in range. -/
theorem c7_terminates :
    (∀ b : Board, solveM b (0, 0) = solveF 82 b (0, 0)) ∧
    (∀ r c, c < 9 →
      9 * (next_key r c).1 + (next_key r c).2 = 9 * r + c + 1 ∧
        (next_key r c).2 < 9) :=
  ⟨solveM_eq_solveF, fun r c hc => ⟨next_key_idx r c hc, next_key_snd r c hc⟩⟩

/-- Claim C7, witness: instantiated at the empty grid and at the first
cursor step. -/
theorem c7_witness :
    solveM bEmpty (0, 0) = solveF 82 bEmpty (0, 0) ∧
      (9 * (next_key 0 0).1 + (next_key 0 0).2 = 9 * 0 + 0 + 1 ∧
        (next_key 0 0).2 < 9) :=
  ⟨c7_terminates.1 bEmpty, c7_terminates.2 0 0 (by decide)⟩

/-- Claim C8: `solve` is deterministic.  In this embedding the solver is
a pure function, so two runs on the same input are definitionally equal;
the meaningful residue of the claim under the in-place mutation of the
Python dict is that running the solver again on the final state of the
dict left by a first run produces the same outcome as the first run
(same solution on success, failure again on failure). -/
theorem c8_deterministic (b : Board) :
    (solveM ((solveM b (0, 0)).2) (0, 0)).1 = (solveM b (0, 0)).1 := by
  rcases hres : solveM b (0, 0) with ⟨o, b2⟩
  show (solveM b2 (0, 0)).1 = o
  cases o with
  | none =>
    have hb2 : b2 = b := by
      have h1 := solveM_eq_solveF b
      have h2 := solveF_restore 82 b (0, 0) (by rw [← h1, hres])
      rw [← h1, hres] at h2
      exact h2
    rw [hb2, hres]
  | some s =>
    have hb2 : b2 = s := by
      have h1 := solveM_eq_solveF b
      have h2 := solveF_success_state 82 b (0, 0) s (by rw [← h1, hres])
      rw [← h1, hres] at h2
      exact h2
    have hsf : solve b = some s := by
      rw [solve, hres]
    have hfull := solve_full b s hsf
    rw [hb2]
    exact solve_of_full s hfull

/-- Claim C9: if `solve` reports failure then the board dict has been
restored to exactly its initial contents: every tentative assignment made
during the search was retracted back to unset. -/
theorem c9_failure_restores (b : Board) (h : (solveM b (0, 0)).1 = none) :
    (solveM b (0, 0)).2 = b := by
  rw [solveM_eq_solveF b] at h ⊢
  exact solveF_restore 82 b (0, 0) h

/-- Claim C9, witness: a concrete unsatisfiable grid fails and its final
state equals its initial state. -/
theorem c9_witness :
    (solveM bFail (0, 0)).1 = none ∧ (solveM bFail (0, 0)).2 = bFail := by
  have h : (solveM bFail (0, 0)).1 = none := by
    rw [solveM_eq_solveF bFail]
    rfl
  exact ⟨h, c9_failure_restores bFail h⟩

/-- Claim C10: totality at the public interface.  The legality predicate
and the solver read only the 81 in-range cells: boards agreeing on them
are indistinguishable (same legality verdicts, same success or failure,
and solutions agreeing on all in-range cells); and `solve` reports
success only once the cursor has passed the last cell, so a returned
grid has no unset cell. -/
theorem c10_in_range_only :
    (∀ (b b2 : Board) (k : Nat × Nat) (v : Nat), k.1 < 9 → k.2 < 9 →
      agreeIn b b2 → possible b k v = possible b2 k v) ∧
    (∀ b b2 : Board, agreeIn b b2 →
      ((solve b = none ↔ solve b2 = none) ∧
        ∀ s s2, solve b = some s → solve b2 = some s2 → agreeIn s s2)) ∧
    (∀ b s : Board, solve b = some s →
      ∀ r, r < 9 → ∀ c, c < 9 → s r c ≠ none) := by
  refine ⟨fun b b2 k v hk1 hk2 hag => possible_congr b b2 k v hk1 hk2 hag,
    fun b b2 hag => ?_, solve_full⟩
  obtain ⟨hiff, hag2⟩ := solveF_congr 82 (0, 0) b b2 hag
  constructor
  · rw [solve, solve, solveM_eq_solveF b, solveM_eq_solveF b2]
    exact hiff
  · intro s s2 hs hs2
    rw [solve, solveM_eq_solveF b] at hs
    rw [solve, solveM_eq_solveF b2] at hs2
    have e1 := solveF_success_state 82 b (0, 0) s hs
    have e2 := solveF_success_state 82 b2 (0, 0) s2 hs2
    rw [e1, e2] at hag2
    exact hag2

/-- Claim C10, witness: instantiations of the three parts on concrete
grids. -/
theorem c10_witness :
    possible bEmpty (0, 0) 0 = possible bEmpty (0, 0) 0 ∧
      (solve bEmpty = none ↔ solve bEmpty = none) ∧
      bDemo 0 0 ≠ none :=
  ⟨c10_in_range_only.1 bEmpty bEmpty (0, 0) 0 (by decide) (by decide)
      (fun _ _ _ _ => rfl),
    (c10_in_range_only.2.1 bEmpty bEmpty (fun _ _ _ _ => rfl)).1,
    c10_in_range_only.2.2 bDemo bDemo (solve_of_full bDemo (by decide)) 0
      (by decide) 0 (by decide)⟩

end Sudoku
